import Mathlib

/-
Verification of the ART (Adaptive Radix Tree) index node code:
a shallow embedding of src/src/execution/index/art/node.cpp together with
the tree-level insert/search/erase algorithms and the node-variant
growth rules described in the design document.  Bytes are modelled as
natural numbers compared for equality only; buffers are lists of bytes.
-/

namespace DuckArt

/-- Node type tags of an ART node header.  The four inner-variant tags are the
ones dispatched on in node.cpp; the leaf tag is modelled from the spec (the
header declaring the enum is not part of the excerpt, and the spec lists the
Leaf as the remaining node kind). -/
inductive NodeType where
  | nleaf
  | n4
  | n16
  | n48
  | n256
deriving DecidableEq

/-- Tree-wide configuration carried by the ART object: the physical byte
capacity reserved per node for compressed-prefix storage. -/
structure ART where
  maxPrefix : Nat
deriving DecidableEq

/-- The common node header of node.cpp: logical prefix length, child count,
type tag and the physical prefix buffer (allocated with maxPrefix bytes).
childData stands for the variant-specific child storage, which none of the
base-class routines in node.cpp touches. -/
structure Node where
  prefix_length : Nat
  count : Nat
  type : NodeType
  prefixBytes : List Nat
  childData : List (Nat × Nat)
deriving DecidableEq

/-- Node::Node(ART &, NodeType): initialises prefix_length and count to 0,
stores the tag, and allocates a fresh maxPrefix-byte prefix buffer
(contents unspecified in C++, modelled as zeros). -/
def Node.new (art : ART) (t : NodeType) : Node :=
  { prefix_length := 0
    count := 0
    type := t
    prefixBytes := List.replicate art.maxPrefix 0
    childData := [] }

/-- Node::CopyPrefix(ART &, Node *src, Node *dst): sets dst->prefix_length to
src->prefix_length and memcpys min(src->prefix_length, art.maxPrefix) bytes
from src's prefix buffer into dst's; the bytes of dst's buffer past that
point keep their old values.  Only dst is written, so the model returns the
updated dst. -/
def CopyPrefix (art : ART) (src dst : Node) : Node :=
  { dst with
    prefix_length := src.prefix_length
    prefixBytes :=
      src.prefixBytes.take (min src.prefix_length art.maxPrefix) ++
      dst.prefixBytes.drop (min src.prefix_length art.maxPrefix) }

/-- The C++ call mutates the two nodes reachable from its pointer arguments;
the state it leaves behind is the pair (src, dst) after the call.  Only dst
is assigned to, so src comes back unchanged. -/
def CopyPrefixState (art : ART) (src dst : Node) : Node × Node :=
  (src, CopyPrefix art src dst)

/-- The exception kinds thrown by the code in node.cpp. -/
inductive ArtError where
  | notImplemented (msg : String)
deriving DecidableEq

/-- The loop of Node::PrefixMismatch: starting at offset pos, scan the list of
physically stored prefix bytes against key[depth + pos], key[depth + pos + 1],
... and return the first offset whose bytes differ, or the offset one past the
last stored byte when all of them match. -/
def mismatchLoop (key : List Nat) (depth : Nat) : List Nat → Nat → Nat
  | [], pos => pos
  | p :: ps, pos =>
    if key.getD (depth + pos) 0 ≠ p then pos
    else mismatchLoop key depth ps (pos + 1)

/-- Node::PrefixMismatch(ART &, Node *, Key &, uint64_t depth): when the
node's logical prefix_length fits the physical capacity, run the comparison
loop over the prefix_length stored bytes; otherwise throw
NotImplementedException("Operation not implemented"). -/
def PrefixMismatch (art : ART) (node : Node) (key : List Nat) (depth : Nat) :
    Except ArtError Nat :=
  if node.prefix_length ≤ art.maxPrefix then
    .ok (mismatchLoop key depth (node.prefixBytes.take node.prefix_length) 0)
  else
    .error (.notImplemented "Operation not implemented")

/-- Outcome of a switch-on-type dispatch site in node.cpp: either control is
handed to the named variant's routine, or the default branch runs assert(0),
a fatal assertion.  No recoverable-error outcome exists at these sites. -/
inductive Dispatch where
  | toVariant (t : NodeType)
  | fatalAssert
deriving DecidableEq

/-- The switch of Node::InsertLeaf: each of the four variant tags selects that
variant's insert routine; any other tag reaches the default: assert(0). -/
def insertLeafDispatch : NodeType → Dispatch
  | .n4 => .toVariant .n4
  | .n16 => .toVariant .n16
  | .n48 => .toVariant .n48
  | .n256 => .toVariant .n256
  | _ => .fatalAssert

/-- The switch of Node::Erase: each of the four variant tags selects that
variant's erase routine; any other tag reaches the default: assert(0). -/
def eraseDispatch : NodeType → Dispatch
  | .n4 => .toVariant .n4
  | .n16 => .toVariant .n16
  | .n48 => .toVariant .n48
  | .n256 => .toVariant .n256
  | _ => .fatalAssert

/-! Helper lemmas about the prefix-comparison loop. -/

theorem getD_take_of_lt (l : List Nat) (n i d : Nat) (h : i < n) :
    (l.take n).getD i d = l.getD i d := by
  simp [List.getD, List.getElem?_take, h]

theorem getD_append_left (l1 l2 : List Nat) (i d : Nat) (h : i < l1.length) :
    (l1 ++ l2).getD i d = l1.getD i d := by
  simp [List.getD, List.getElem?_append, h]

theorem getD_append_right (l1 l2 : List Nat) (i d : Nat) (h : l1.length ≤ i) :
    (l1 ++ l2).getD i d = l2.getD (i - l1.length) d := by
  simp [List.getD, List.getElem?_append, Nat.not_lt.mpr h]

theorem getD_drop (l : List Nat) (n i d : Nat) :
    (l.drop n).getD i d = l.getD (n + i) d := by
  simp [List.getD, List.getElem?_drop]

theorem mismatchLoop_shift (key : List Nat) (ps : List Nat) : ∀ depth pos,
    mismatchLoop key depth ps pos =
      pos + mismatchLoop key (depth + pos) ps 0 := by
  induction ps with
  | nil => intro depth pos; simp [mismatchLoop]
  | cons p ps ih =>
    intro depth pos
    by_cases h : key.getD (depth + pos) 0 = p
    · have h0 : key.getD (depth + pos + 0) 0 = p := by simpa using h
      rw [mismatchLoop, if_neg (by simpa using h), mismatchLoop, if_neg (by simpa using h0)]
      rw [ih depth (pos + 1), ih (depth + pos) 1]
      rw [show depth + (pos + 1) = depth + pos + 1 from by omega]
      omega
    · rw [mismatchLoop, if_pos (by simpa using h), mismatchLoop, if_pos (by simpa using h)]
      omega

theorem mismatchLoop_spec (key : List Nat) (ps : List Nat) : ∀ depth,
    mismatchLoop key depth ps 0 ≤ ps.length ∧
    (∀ i, i < mismatchLoop key depth ps 0 →
      key.getD (depth + i) 0 = ps.getD i 0) ∧
    (mismatchLoop key depth ps 0 < ps.length →
      key.getD (depth + mismatchLoop key depth ps 0) 0 ≠
        ps.getD (mismatchLoop key depth ps 0) 0) := by
  induction ps with
  | nil => intro depth; simp [mismatchLoop]
  | cons p ps ih =>
    intro depth
    by_cases h : key.getD (depth + 0) 0 = p
    · rw [mismatchLoop, if_neg (by simpa using h)]
      rw [mismatchLoop_shift key ps depth 1]
      obtain ⟨ih1, ih2, ih3⟩ := ih (depth + 1)
      refine ⟨by simp only [List.length_cons]; omega, ?_, ?_⟩
      · intro i hi
        match i with
        | 0 => simpa using h
        | Nat.succ j =>
          have hj : j < mismatchLoop key (depth + 1) ps 0 := by omega
          have := ih2 j hj
          rw [List.getD_cons_succ]
          rw [show depth + (j + 1) = depth + 1 + j by omega]
          exact this
      · intro hlt
        have hlt' : mismatchLoop key (depth + 1) ps 0 < ps.length := by
          simp only [List.length_cons] at hlt
          omega
        have := ih3 hlt'
        rw [show (1 + mismatchLoop key (depth + 1) ps 0) =
            (mismatchLoop key (depth + 1) ps 0) + 1 by omega]
        rw [List.getD_cons_succ]
        rw [show depth + (mismatchLoop key (depth + 1) ps 0 + 1) =
            depth + 1 + mismatchLoop key (depth + 1) ps 0 by omega]
        exact this
    · rw [mismatchLoop, if_pos (by simpa using h)]
      exact ⟨Nat.zero_le _, by omega, fun _ => by simpa using h⟩

/-- C1: for every node whose prefix_length is at most maxPrefix (its prefix
buffer being the allocated maxPrefix bytes) and every key with positions
depth..depth+prefix_length-1 readable, PrefixMismatch returns the smallest
offset p < prefix_length at which the key byte differs from the stored prefix
byte, or prefix_length itself when every stored prefix byte matches. -/
theorem prefixMismatch_first_divergence (art : ART) (node : Node)
    (key : List Nat) (depth : Nat)
    (hcap : node.prefix_length ≤ art.maxPrefix)
    (hbuf : node.prefixBytes.length = art.maxPrefix)
    (hkey : depth + node.prefix_length ≤ key.length) :
    ∃ p, PrefixMismatch art node key depth = .ok p ∧
      p ≤ node.prefix_length ∧
      (∀ i, i < p → key.getD (depth + i) 0 = node.prefixBytes.getD i 0) ∧
      (p < node.prefix_length →
        key.getD (depth + p) 0 ≠ node.prefixBytes.getD p 0) := by
  have hlen : (node.prefixBytes.take node.prefix_length).length =
      node.prefix_length := by
    simp [hbuf, hcap]
  obtain ⟨h1, h2, h3⟩ :=
    mismatchLoop_spec key (node.prefixBytes.take node.prefix_length) depth
  refine ⟨mismatchLoop key depth (node.prefixBytes.take node.prefix_length) 0,
    ?_, ?_, ?_, ?_⟩
  · simp [PrefixMismatch, hcap]
  · omega
  · intro i hi
    have := h2 i hi
    rwa [getD_take_of_lt _ _ _ _ (by omega)] at this
  · intro hlt
    have := h3 (by omega)
    rwa [getD_take_of_lt _ _ _ _ (by omega)] at this

/-- C1 witness: a concrete node with a two-byte stored prefix whose second
byte diverges from the key. -/
theorem prefixMismatch_first_divergence_witness :
    (2 ≤ 4 ∧ [7, 9, 0, 0].length = 4 ∧ 1 + 2 ≤ [0, 7, 8, 9].length) ∧
    ∃ p, PrefixMismatch ⟨4⟩ ⟨2, 0, .n4, [7, 9, 0, 0], []⟩ [0, 7, 8, 9] 1 = .ok p ∧
      p ≤ 2 ∧
      (∀ i, i < p → [0, 7, 8, 9].getD (1 + i) 0 = [7, 9, 0, 0].getD i 0) ∧
      (p < 2 → [0, 7, 8, 9].getD (1 + p) 0 ≠ [7, 9, 0, 0].getD p 0) :=
  ⟨⟨by decide, by decide, by decide⟩,
    prefixMismatch_first_divergence ⟨4⟩ ⟨2, 0, .n4, [7, 9, 0, 0], []⟩
      [0, 7, 8, 9] 1 (by decide) (by decide) (by decide)⟩

/-- C2: PrefixMismatch throws the not-implemented exception exactly when the
node's logical prefix_length exceeds the physical capacity maxPrefix, and it
returns normally exactly when prefix_length fits. -/
theorem prefixMismatch_error_iff (art : ART) (node : Node)
    (key : List Nat) (depth : Nat) :
    (PrefixMismatch art node key depth =
        .error (.notImplemented "Operation not implemented") ↔
      art.maxPrefix < node.prefix_length) ∧
    ((∃ p, PrefixMismatch art node key depth = .ok p) ↔
      node.prefix_length ≤ art.maxPrefix) := by
  by_cases h : node.prefix_length ≤ art.maxPrefix
  · refine ⟨?_, ?_⟩
    · simp only [PrefixMismatch, if_pos h]
      constructor
      · intro hc; simp at hc
      · intro hc; omega
    · simp only [PrefixMismatch, if_pos h]
      exact ⟨fun _ => h, fun _ => ⟨_, rfl⟩⟩
  · refine ⟨?_, ?_⟩
    · simp only [PrefixMismatch, if_neg h]
      exact ⟨fun _ => by omega, fun _ => trivial⟩
    · simp only [PrefixMismatch, if_neg h]
      constructor
      · rintro ⟨p, hp⟩
        simp at hp
      · intro hc; omega

theorem mismatchLoop_congr (key key2 : List Nat) : ∀ (ps ps2 : List Nat) (depth : Nat),
    ps.length = ps2.length →
    (∀ i, i < ps.length → ps.getD i 0 = ps2.getD i 0) →
    (∀ i, i < ps.length → key.getD (depth + i) 0 = key2.getD (depth + i) 0) →
    mismatchLoop key depth ps 0 = mismatchLoop key2 depth ps2 0 := by
  intro ps
  induction ps with
  | nil =>
    intro ps2 depth hlen _ _
    match ps2 with
    | [] => rfl
    | q :: qs => simp at hlen
  | cons p ps ih =>
    intro ps2 depth hlen hps hkey
    match ps2 with
    | [] => simp at hlen
    | q :: qs =>
      have hpq : p = q := by simpa using hps 0 (by simp)
      have hk0 : key.getD (depth + 0) 0 = key2.getD (depth + 0) 0 :=
        hkey 0 (by simp)
      by_cases h : key.getD (depth + 0) 0 = p
      · rw [mismatchLoop, if_neg (by simpa using h)]
        rw [mismatchLoop, if_neg (by rw [← hk0, ← hpq]; simpa using h)]
        rw [mismatchLoop_shift key ps depth 1, mismatchLoop_shift key2 qs depth 1]
        congr 1
        refine ih qs (depth + 1) (by simpa using hlen) ?_ ?_
        · intro i hi
          simpa using hps (i + 1) (by simp; omega)
        · intro i hi
          have := hkey (i + 1) (by simp; omega)
          rw [show depth + 1 + i = depth + (i + 1) from by omega]
          exact this
      · rw [mismatchLoop, if_pos (by simpa using h)]
        rw [mismatchLoop, if_pos (by rw [← hk0, ← hpq]; simpa using h)]

/-- C10: under the preconditions prefix_length ≤ maxPrefix and
depth + prefix_length ≤ key length (all accesses in bounds), PrefixMismatch
returns normally with a value in [0, prefix_length], and its result depends
only on key positions depth..depth+prefix_length-1 and stored prefix
positions 0..prefix_length-1: any key and any equally sized buffer agreeing
on exactly those positions produce the same result. -/
theorem prefixMismatch_reads_in_bounds (art : ART) (node : Node)
    (key : List Nat) (depth : Nat)
    (hcap : node.prefix_length ≤ art.maxPrefix)
    (hbuf : node.prefixBytes.length = art.maxPrefix)
    (hkey : depth + node.prefix_length ≤ key.length) :
    ∃ p, PrefixMismatch art node key depth = .ok p ∧
      p ≤ node.prefix_length ∧
      ∀ key2 pfx2 : List Nat, pfx2.length = art.maxPrefix →
        (∀ i, i < node.prefix_length →
          key2.getD (depth + i) 0 = key.getD (depth + i) 0) →
        (∀ i, i < node.prefix_length →
          pfx2.getD i 0 = node.prefixBytes.getD i 0) →
        PrefixMismatch art { node with prefixBytes := pfx2 } key2 depth = .ok p := by
  have hlen : (node.prefixBytes.take node.prefix_length).length =
      node.prefix_length := by simp [hbuf, hcap]
  obtain ⟨h1, _, _⟩ :=
    mismatchLoop_spec key (node.prefixBytes.take node.prefix_length) depth
  refine ⟨mismatchLoop key depth (node.prefixBytes.take node.prefix_length) 0,
    by simp [PrefixMismatch, hcap], by omega, ?_⟩
  intro key2 pfx2 hbuf2 hk2 hp2
  have hcap2 : (({ node with prefixBytes := pfx2 } : Node)).prefix_length ≤
      art.maxPrefix := hcap
  have hloop : mismatchLoop key depth (node.prefixBytes.take node.prefix_length) 0 =
      mismatchLoop key2 depth (pfx2.take node.prefix_length) 0 := by
    refine mismatchLoop_congr key key2 _ _ depth ?_ ?_ ?_
    · simp [hbuf, hbuf2, hcap]
    · intro i hi
      rw [hlen] at hi
      rw [getD_take_of_lt _ _ _ _ hi, getD_take_of_lt _ _ _ _ hi]
      exact (hp2 i hi).symm
    · intro i hi
      rw [hlen] at hi
      exact (hk2 i hi).symm
  simp only [PrefixMismatch, if_pos hcap2]
  rw [← hloop]

/-- C10 witness: a concrete in-bounds instance. -/
theorem prefixMismatch_reads_in_bounds_witness :
    (2 ≤ 3 ∧ [5, 6, 7].length = 3 ∧ 0 + 2 ≤ [5, 6].length) ∧
    ∃ p, PrefixMismatch ⟨3⟩ ⟨2, 0, .n4, [5, 6, 7], []⟩ [5, 6] 0 = .ok p ∧
      p ≤ 2 ∧
      ∀ key2 pfx2 : List Nat, pfx2.length = 3 →
        (∀ i, i < 2 → key2.getD (0 + i) 0 = [5, 6].getD (0 + i) 0) →
        (∀ i, i < 2 → pfx2.getD i 0 = [5, 6, 7].getD i 0) →
        PrefixMismatch ⟨3⟩ { (⟨2, 0, .n4, [5, 6, 7], []⟩ : Node) with prefixBytes := pfx2 }
          key2 0 = .ok p :=
  ⟨⟨by decide, by decide, by decide⟩,
    prefixMismatch_reads_in_bounds ⟨3⟩ ⟨2, 0, .n4, [5, 6, 7], []⟩ [5, 6] 0
      (by decide) (by decide) (by decide)⟩

theorem copyPrefix_getD_lt (art : ART) (src dst : Node)
    (hs : src.prefixBytes.length = art.maxPrefix) (i : Nat)
    (hi : i < min src.prefix_length art.maxPrefix) :
    (CopyPrefix art src dst).prefixBytes.getD i 0 = src.prefixBytes.getD i 0 := by
  have htk : (src.prefixBytes.take (min src.prefix_length art.maxPrefix)).length =
      min src.prefix_length art.maxPrefix := by simp [hs]
  show (src.prefixBytes.take (min src.prefix_length art.maxPrefix) ++
    dst.prefixBytes.drop (min src.prefix_length art.maxPrefix)).getD i 0 = _
  rw [getD_append_left _ _ _ _ (by rw [htk]; exact hi)]
  exact getD_take_of_lt _ _ _ _ hi

theorem copyPrefix_getD_ge (art : ART) (src dst : Node)
    (hs : src.prefixBytes.length = art.maxPrefix) (i : Nat)
    (hi : min src.prefix_length art.maxPrefix ≤ i) :
    (CopyPrefix art src dst).prefixBytes.getD i 0 = dst.prefixBytes.getD i 0 := by
  have htk : (src.prefixBytes.take (min src.prefix_length art.maxPrefix)).length =
      min src.prefix_length art.maxPrefix := by simp [hs]
  show (src.prefixBytes.take (min src.prefix_length art.maxPrefix) ++
    dst.prefixBytes.drop (min src.prefix_length art.maxPrefix)).getD i 0 = _
  rw [getD_append_right _ _ _ _ (by rw [htk]; exact hi)]
  rw [htk, getD_drop]
  congr 1
  omega

/-- C3: CopyPrefix copies the logical prefix_length verbatim (even when it
exceeds maxPrefix) and copies exactly min(src.prefix_length, maxPrefix)
prefix bytes from src into dst, leaving dst's remaining buffer bytes as they
were. -/
theorem copyPrefix_copies_min (art : ART) (src dst : Node)
    (hs : src.prefixBytes.length = art.maxPrefix)
    (hd : dst.prefixBytes.length = art.maxPrefix) :
    (CopyPrefix art src dst).prefix_length = src.prefix_length ∧
    (∀ i, i < min src.prefix_length art.maxPrefix →
      (CopyPrefix art src dst).prefixBytes.getD i 0 = src.prefixBytes.getD i 0) ∧
    (∀ i, min src.prefix_length art.maxPrefix ≤ i →
      (CopyPrefix art src dst).prefixBytes.getD i 0 = dst.prefixBytes.getD i 0) :=
  ⟨rfl, fun i hi => copyPrefix_getD_lt art src dst hs i hi,
    fun i hi => copyPrefix_getD_ge art src dst hs i hi⟩

/-- C3 witness: prefix_length 3 with capacity 2 copies the length verbatim
and exactly min(3, 2) = 2 bytes. -/
theorem copyPrefix_copies_min_witness :
    ([8, 9].length = 2 ∧ [3, 4].length = 2) ∧
    ((CopyPrefix ⟨2⟩ ⟨3, 1, .n16, [8, 9], [(1, 2)]⟩ ⟨0, 5, .n4, [3, 4], []⟩).prefix_length = 3 ∧
     (∀ i, i < min 3 2 →
       (CopyPrefix ⟨2⟩ ⟨3, 1, .n16, [8, 9], [(1, 2)]⟩ ⟨0, 5, .n4, [3, 4], []⟩).prefixBytes.getD i 0 =
         [8, 9].getD i 0) ∧
     (∀ i, min 3 2 ≤ i →
       (CopyPrefix ⟨2⟩ ⟨3, 1, .n16, [8, 9], [(1, 2)]⟩ ⟨0, 5, .n4, [3, 4], []⟩).prefixBytes.getD i 0 =
         [3, 4].getD i 0)) :=
  ⟨⟨by decide, by decide⟩,
    copyPrefix_copies_min ⟨2⟩ ⟨3, 1, .n16, [8, 9], [(1, 2)]⟩ ⟨0, 5, .n4, [3, 4], []⟩
      (by decide) (by decide)⟩

/-- C9: the CopyPrefix call leaves src unchanged and changes nothing of dst
except its prefix_length field and the first min(src.prefix_length, maxPrefix)
bytes of its prefix buffer: count, type tag, child storage, the buffer's size
and every buffer byte past the copied region keep their old values. -/
theorem copyPrefix_frame (art : ART) (src dst : Node)
    (hs : src.prefixBytes.length = art.maxPrefix)
    (hd : dst.prefixBytes.length = art.maxPrefix) :
    (CopyPrefixState art src dst).1 = src ∧
    (CopyPrefixState art src dst).2.count = dst.count ∧
    (CopyPrefixState art src dst).2.type = dst.type ∧
    (CopyPrefixState art src dst).2.childData = dst.childData ∧
    (CopyPrefixState art src dst).2.prefixBytes.length = dst.prefixBytes.length ∧
    (∀ i, min src.prefix_length art.maxPrefix ≤ i →
      (CopyPrefixState art src dst).2.prefixBytes.getD i 0 =
        dst.prefixBytes.getD i 0) := by
  refine ⟨rfl, rfl, rfl, rfl, ?_, ?_⟩
  · show (src.prefixBytes.take (min src.prefix_length art.maxPrefix) ++
      dst.prefixBytes.drop (min src.prefix_length art.maxPrefix)).length = _
    simp [hs, hd]
  · exact fun i hi => copyPrefix_getD_ge art src dst hs i hi

/-- C9 witness: a concrete frame instance with capacity 2. -/
theorem copyPrefix_frame_witness :
    ([8, 9].length = 2 ∧ [3, 4].length = 2) ∧
    (CopyPrefixState ⟨2⟩ ⟨1, 1, .n16, [8, 9], [(1, 2)]⟩ ⟨0, 5, .n4, [3, 4], [(7, 7)]⟩).1 =
      ⟨1, 1, .n16, [8, 9], [(1, 2)]⟩ ∧
    (CopyPrefixState ⟨2⟩ ⟨1, 1, .n16, [8, 9], [(1, 2)]⟩ ⟨0, 5, .n4, [3, 4], [(7, 7)]⟩).2.count = 5 ∧
    (CopyPrefixState ⟨2⟩ ⟨1, 1, .n16, [8, 9], [(1, 2)]⟩ ⟨0, 5, .n4, [3, 4], [(7, 7)]⟩).2.type = .n4 ∧
    (CopyPrefixState ⟨2⟩ ⟨1, 1, .n16, [8, 9], [(1, 2)]⟩ ⟨0, 5, .n4, [3, 4], [(7, 7)]⟩).2.childData = [(7, 7)] ∧
    (CopyPrefixState ⟨2⟩ ⟨1, 1, .n16, [8, 9], [(1, 2)]⟩ ⟨0, 5, .n4, [3, 4], [(7, 7)]⟩).2.prefixBytes.length = [3, 4].length ∧
    (∀ i, min 1 2 ≤ i →
      (CopyPrefixState ⟨2⟩ ⟨1, 1, .n16, [8, 9], [(1, 2)]⟩ ⟨0, 5, .n4, [3, 4], [(7, 7)]⟩).2.prefixBytes.getD i 0 =
        [3, 4].getD i 0) := by
  have h := copyPrefix_frame ⟨2⟩ ⟨1, 1, .n16, [8, 9], [(1, 2)]⟩ ⟨0, 5, .n4, [3, 4], [(7, 7)]⟩
    (by decide) (by decide)
  exact ⟨⟨by decide, by decide⟩, h.1, h.2.1, h.2.2.1, h.2.2.2.1, h.2.2.2.2.1, h.2.2.2.2.2⟩

/-- C8: every newly constructed Node, whichever tag it is created with,
starts with prefix_length 0 and count 0. -/
theorem node_new_zero_init (art : ART) (t : NodeType) :
    (Node.new art t).prefix_length = 0 ∧ (Node.new art t).count = 0 :=
  ⟨rfl, rfl⟩

/-- C6: at each of the two dispatch sites (InsertLeaf and Erase) separately,
the fatal-assertion default branch runs exactly for a tag other than the four
variant tags: for each variant tag both sites dispatch to that variant's
routine (the default is unreachable), and for any other tag each site runs
the fatal assertion; no recoverable-error outcome exists at these sites (the
Dispatch type has no such constructor). -/
theorem dispatch_default_fatal_iff (t : NodeType) :
    (insertLeafDispatch t = .fatalAssert ↔
      ¬(t = .n4 ∨ t = .n16 ∨ t = .n48 ∨ t = .n256)) ∧
    (eraseDispatch t = .fatalAssert ↔
      ¬(t = .n4 ∨ t = .n16 ∨ t = .n48 ∨ t = .n256)) := by
  cases t <;> exact ⟨by decide, by decide⟩

/-!
Tree-level algorithms.  The ART traversal, insert, search and erase code is
not part of the excerpt (only node.cpp is), so the tree layer below is
modelled from the spec, sections 4.2-4.4: a recursive tree of compressed-prefix
inner nodes with (byte, child) edges and of leaves holding the full key and
its row identifiers.  The fixed-capacity variant layouts only change how the
child set is stored, not which children exist, so the child set is modelled
as an association list with unique bytes.
-/

/-- Modelled from the spec: a tree node is either a leaf holding the full key
and its row identifiers, or an inner node holding the compressed prefix and
the (key byte, child) edges.  The four variant capacities affect only the
physical layout of the edge set, which this model keeps abstract. -/
inductive Tree where
  | leaf (key : List Nat) (rowIds : List Nat)
  | inner (pfx : List Nat) (children : List (Nat × Tree))

/-- Modelled from the spec: length of the longest common leading span of two
byte sequences. -/
def lcp : List Nat → List Nat → Nat
  | a :: as, b :: bs => if a = b then lcp as bs + 1 else 0
  | _, _ => 0

/-- Modelled from the spec: the prefix-mismatch offset of a key against a
logical prefix at a depth, computed with the same comparison loop as
Node::PrefixMismatch. -/
def pMismatch (k : List Nat) (pfx : List Nat) (d : Nat) : Nat :=
  mismatchLoop k d pfx 0

/-- Modelled from the spec: fetch the child for a key byte (GetChild across
the variants). -/
def assocFind (b : Nat) : List (Nat × Tree) → Option Tree
  | [] => none
  | (b', c) :: rest => if b' = b then some c else assocFind b rest

mutual

/-- Modelled from the spec: (section 4.3, Search) at a leaf, return its row
identifiers when its stored key equals the searched key; at an inner node,
return empty on a prefix mismatch, otherwise advance past the prefix and
follow the child for the next key byte. -/
def searchT (k : List Nat) (d : Nat) : Tree → List Nat
  | .leaf k0 rids => if k0 = k then rids else []
  | .inner pfx ch =>
    if pMismatch k pfx d < pfx.length then []
    else searchCh k (d + pfx.length + 1) (k.getD (d + pfx.length) 0) ch

/-- Modelled from the spec: scan of the child edges for the key byte during
Search; an absent byte means the key is not in the tree. -/
def searchCh (k : List Nat) (d : Nat) (b : Nat) : List (Nat × Tree) → List Nat
  | [] => []
  | (b', c) :: rest => if b' = b then searchT k d c else searchCh k d b rest

end

mutual

/-- Modelled from the spec: (section 4.2, Insert) at a leaf with the same key,
append the row id to its identifier set; at a leaf with another key, split on
the longest common span and attach both leaves under a fresh inner node,
keyed by their first diverging bytes; at an inner node, split inside the
compressed prefix when the key diverges there, otherwise advance past the
prefix and insert into the child for the next key byte.  When one key is a
strict prefix of the other the spec defines no diverging byte; reading past
a key's end is modelled as the default byte 0, which then produces two
children with the same edge byte. -/
def insertT (k : List Nat) (r : Nat) (d : Nat) : Tree → Tree
  | .leaf k0 rids =>
    if k0 = k then .leaf k0 (rids ++ [r])
    else
      .inner ((k.drop d).take (lcp (k0.drop d) (k.drop d)))
        [(k0.getD (d + lcp (k0.drop d) (k.drop d)) 0, .leaf k0 rids),
         (k.getD (d + lcp (k0.drop d) (k.drop d)) 0, .leaf k [r])]
  | .inner pfx ch =>
    if pMismatch k pfx d < pfx.length then
      .inner (pfx.take (pMismatch k pfx d))
        [(pfx.getD (pMismatch k pfx d) 0,
            .inner (pfx.drop (pMismatch k pfx d + 1)) ch),
         (k.getD (d + pMismatch k pfx d) 0, .leaf k [r])]
    else
      .inner pfx
        (insertCh k r (d + pfx.length + 1) (k.getD (d + pfx.length) 0) ch)

/-- Modelled from the spec: insert into the child for the key byte, or attach
a fresh leaf when that byte has no child yet (growing the variant only
changes the physical layout, not the edge set). -/
def insertCh (k : List Nat) (r : Nat) (d : Nat) (b : Nat) :
    List (Nat × Tree) → List (Nat × Tree)
  | [] => [(b, .leaf k [r])]
  | (b', c) :: rest =>
    if b' = b then (b', insertT k r d c) :: rest
    else (b', c) :: insertCh k r d b rest

end

/-- Modelled from the spec: (section 4.4) path-compression merge of a node
left with a single child: the child's prefix is extended by the parent's
prefix plus the parent's edge byte; a leaf child simply replaces the parent
(it stores its full key). -/
def mergeNode (pfx : List Nat) (b : Nat) : Tree → Tree
  | .leaf k0 rids => .leaf k0 rids
  | .inner cpfx cch => .inner (pfx ++ b :: cpfx) cch

mutual

/-- Modelled from the spec: (section 4.4, Erase) descend as in Search; at the
target leaf remove one occurrence of the row id (deleting the leaf when its
identifier set becomes empty); a pair not present is a no-op reported as
not-found (first component false).  A non-root inner node left with exactly
one child is merged away. -/
def eraseT (k : List Nat) (r : Nat) (root : Bool) (d : Nat) :
    Tree → Bool × Option Tree
  | .leaf k0 rids =>
    if k0 = k ∧ r ∈ rids then
      if rids.erase r = [] then (true, none)
      else (true, some (.leaf k0 (rids.erase r)))
    else (false, some (.leaf k0 rids))
  | .inner pfx ch =>
    if pMismatch k pfx d < pfx.length then (false, some (.inner pfx ch))
    else
      match eraseCh k r (d + pfx.length + 1) (k.getD (d + pfx.length) 0) ch with
      | (false, _) => (false, some (.inner pfx ch))
      | (true, ch') =>
        match ch', root with
        | [(b1, c1)], false => (true, some (mergeNode pfx b1 c1))
        | _, _ => (true, some (.inner pfx ch'))

/-- Modelled from the spec: erase inside the child for the key byte; when the
child disappears its edge is removed (shrinking the variant only changes the
physical layout, not the edge set). -/
def eraseCh (k : List Nat) (r : Nat) (d : Nat) (b : Nat) :
    List (Nat × Tree) → Bool × List (Nat × Tree)
  | [] => (false, [])
  | (b', c) :: rest =>
    if b' = b then
      match eraseT k r false d c with
      | (false, _) => (false, (b', c) :: rest)
      | (true, none) => (true, rest)
      | (true, some c') => (true, (b', c') :: rest)
    else
      match eraseCh k r d b rest with
      | (f, rest') => (f, (b', c) :: rest')

end

/-- Modelled from the spec: Search from the root handle; an empty tree holds
nothing. -/
def searchRoot (t : Option Tree) (k : List Nat) : List Nat :=
  match t with
  | none => []
  | some tr => searchT k 0 tr

/-- Modelled from the spec: Erase from the root handle; the root itself is
never merged. -/
def eraseRoot (t : Option Tree) (k : List Nat) (r : Nat) : Bool × Option Tree :=
  match t with
  | none => (false, none)
  | some tr => eraseT k r true 0 tr

mutual

/-- All leaf keys stored in a tree. -/
def keysOf : Tree → List (List Nat)
  | .leaf k0 _ => [k0]
  | .inner _ ch => keysOfCh ch

/-- All leaf keys stored below a child list. -/
def keysOfCh : List (Nat × Tree) → List (List Nat)
  | [] => []
  | (_, c) :: rest => keysOf c ++ keysOfCh rest

end

/-! Helper lemmas for the tree-level proofs. -/

theorem pm_le (k pfx : List Nat) (d : Nat) : pMismatch k pfx d ≤ pfx.length :=
  (mismatchLoop_spec k pfx d).1

theorem pm_agree (k pfx : List Nat) (d : Nat) :
    ∀ i, i < pMismatch k pfx d → k.getD (d + i) 0 = pfx.getD i 0 :=
  (mismatchLoop_spec k pfx d).2.1

theorem pm_ne (k pfx : List Nat) (d : Nat) (h : pMismatch k pfx d < pfx.length) :
    k.getD (d + pMismatch k pfx d) 0 ≠ pfx.getD (pMismatch k pfx d) 0 :=
  (mismatchLoop_spec k pfx d).2.2 h

theorem pm_eq_of (k pfx : List Nat) (d x : Nat)
    (h1 : x ≤ pfx.length)
    (h2 : ∀ i, i < x → k.getD (d + i) 0 = pfx.getD i 0)
    (h3 : x < pfx.length → k.getD (d + x) 0 ≠ pfx.getD x 0) :
    pMismatch k pfx d = x := by
  rcases Nat.lt_trichotomy (pMismatch k pfx d) x with h | h | h
  · exact absurd (h2 _ h) (pm_ne k pfx d (by have := pm_le k pfx d; omega))
  · exact h
  · exact absurd (pm_agree k pfx d _ h) (h3 (by have := pm_le k pfx d; omega))

theorem pm_full (k pfx : List Nat) (d : Nat)
    (h : ∀ i, i < pfx.length → k.getD (d + i) 0 = pfx.getD i 0) :
    pMismatch k pfx d = pfx.length :=
  pm_eq_of k pfx d pfx.length (le_refl _) (fun i hi => h i hi) (by omega)

theorem lcp_le_left : ∀ as bs : List Nat, lcp as bs ≤ as.length := by
  intro as
  induction as with
  | nil => intro bs; cases bs <;> simp [lcp]
  | cons a as ih =>
    intro bs
    cases bs with
    | nil => simp [lcp]
    | cons b bs =>
      by_cases h : a = b
      · rw [lcp, if_pos h]
        have := ih bs
        simp
        omega
      · rw [lcp, if_neg h]
        simp

theorem lcp_le_right : ∀ as bs : List Nat, lcp as bs ≤ bs.length := by
  intro as
  induction as with
  | nil => intro bs; cases bs <;> simp [lcp]
  | cons a as ih =>
    intro bs
    cases bs with
    | nil => simp [lcp]
    | cons b bs =>
      by_cases h : a = b
      · rw [lcp, if_pos h]
        have := ih bs
        simp
        omega
      · rw [lcp, if_neg h]
        simp

theorem lcp_getD_eq : ∀ as bs : List Nat, ∀ i, i < lcp as bs →
    as.getD i 0 = bs.getD i 0 := by
  intro as
  induction as with
  | nil => intro bs i hi; cases bs <;> simp [lcp] at hi
  | cons a as ih =>
    intro bs i hi
    cases bs with
    | nil => simp [lcp] at hi
    | cons b bs =>
      by_cases h : a = b
      · rw [lcp, if_pos h] at hi
        match i with
        | 0 => simpa using h
        | Nat.succ j =>
          rw [List.getD_cons_succ, List.getD_cons_succ]
          exact ih bs j (by omega)
      · rw [lcp, if_neg h] at hi
        omega

theorem lcp_getD_ne : ∀ as bs : List Nat, lcp as bs < as.length →
    lcp as bs < bs.length →
    as.getD (lcp as bs) 0 ≠ bs.getD (lcp as bs) 0 := by
  intro as
  induction as with
  | nil => intro bs h1 _; simp at h1
  | cons a as ih =>
    intro bs h1 h2
    cases bs with
    | nil => simp at h2
    | cons b bs =>
      by_cases h : a = b
      · rw [lcp, if_pos h] at h1 h2 ⊢
        rw [List.getD_cons_succ, List.getD_cons_succ]
        exact ih bs (by simpa using h1) (by simpa using h2)
      · rw [lcp, if_neg h] at h1 h2 ⊢
        simpa using h

theorem lcp_lt_of_ne : ∀ as bs : List Nat, as.length = bs.length → as ≠ bs →
    lcp as bs < as.length := by
  intro as
  induction as with
  | nil =>
    intro bs hlen hne
    cases bs with
    | nil => exact absurd rfl hne
    | cons b bs => simp at hlen
  | cons a as ih =>
    intro bs hlen hne
    cases bs with
    | nil => simp at hlen
    | cons b bs =>
      by_cases h : a = b
      · rw [lcp, if_pos h]
        have hne' : as ≠ bs := by
          intro he
          exact hne (by rw [h, he])
        have := ih bs (by simpa using hlen) hne'
        simp
        omega
      · rw [lcp, if_neg h]
        simp

theorem eq_of_getD_eq : ∀ as bs : List Nat, as.length = bs.length →
    (∀ i, i < as.length → as.getD i 0 = bs.getD i 0) → as = bs := by
  intro as
  induction as with
  | nil =>
    intro bs hlen _
    cases bs with
    | nil => rfl
    | cons b bs => simp at hlen
  | cons a as ih =>
    intro bs hlen hg
    cases bs with
    | nil => simp at hlen
    | cons b bs =>
      have h0 : a = b := by simpa using hg 0 (by simp)
      have ht : as = bs := by
        refine ih bs (by simpa using hlen) ?_
        intro i hi
        have := hg (i + 1) (by simp; omega)
        simpa using this
      rw [h0, ht]

theorem drop_ne_of_ne (k0 k : List Nat) (d : Nat) (h0 : k0.length = k.length)
    (hne : k0 ≠ k) (hagr : ∀ i, i < d → k0.getD i 0 = k.getD i 0) :
    k0.drop d ≠ k.drop d := by
  intro heq
  apply hne
  refine eq_of_getD_eq _ _ h0 ?_
  intro i hi
  by_cases hd : i < d
  · exact hagr i hd
  · have h1 : k0.getD i 0 = (k0.drop d).getD (i - d) 0 := by
      rw [getD_drop]
      congr 1
      omega
    have h2 : k.getD i 0 = (k.drop d).getD (i - d) 0 := by
      rw [getD_drop]
      congr 1
      omega
    rw [h1, h2, heq]

theorem keysOfCh_mem : ∀ (ch : List (Nat × Tree)) (pr : Nat × Tree)
    (k0 : List Nat), pr ∈ ch → k0 ∈ keysOf pr.2 → k0 ∈ keysOfCh ch := by
  intro ch
  induction ch with
  | nil => intro pr k0 hm; simp at hm
  | cons hd rest ih =>
    intro pr k0 hm hk
    rw [keysOfCh]
    rcases List.mem_cons.mp hm with h | h
    · subst h
      exact List.mem_append_left _ hk
    · exact List.mem_append_right _ (ih pr k0 h hk)

mutual

theorem searchT_not_mem (k' : List Nat) : ∀ (d : Nat) (t : Tree),
    k' ∉ keysOf t → searchT k' d t = [] := by
  intro d t
  match t with
  | .leaf k0 rids =>
    intro hk
    rw [keysOf] at hk
    rw [searchT, if_neg (by simpa using fun he => hk (by simp [he]))]
  | .inner pfx ch =>
    intro hk
    rw [keysOf] at hk
    rw [searchT]
    by_cases h : pMismatch k' pfx d < pfx.length
    · rw [if_pos h]
    · rw [if_neg h]
      exact searchCh_not_mem k' (d + pfx.length + 1) (k'.getD (d + pfx.length) 0) ch hk

theorem searchCh_not_mem (k' : List Nat) : ∀ (d b : Nat)
    (ch : List (Nat × Tree)), k' ∉ keysOfCh ch → searchCh k' d b ch = [] := by
  intro d b ch
  match ch with
  | [] => intro _; rfl
  | (b', c) :: rest =>
    intro hk
    rw [keysOfCh] at hk
    rw [searchCh]
    by_cases h : b' = b
    · rw [if_pos h]
      exact searchT_not_mem k' d c (fun hm => hk (List.mem_append_left _ hm))
    · rw [if_neg h]
      exact searchCh_not_mem k' d b rest (fun hm => hk (List.mem_append_right _ hm))

end

mutual

/-- Structural invariant of a subtree sitting at depth d of a tree over keys
of length L: leaf keys have length L and fit the depth; an inner node's
compressed span ends strictly before L, and each child subtree is again
well-formed, with every key below it agreeing with the node's prefix and
with the child's edge byte (spec, section 3, prefix invariant). -/
def invT (L : Nat) (d : Nat) : Tree → Prop
  | .leaf k0 _ => k0.length = L ∧ d ≤ L
  | .inner pfx ch => d + pfx.length < L ∧ invCh L d pfx ch

/-- Child-list part of the invariant. -/
def invCh (L : Nat) (d : Nat) (pfx : List Nat) : List (Nat × Tree) → Prop
  | [] => True
  | (b, c) :: rest =>
    (invT L (d + pfx.length + 1) c ∧
      ∀ k0, k0 ∈ keysOf c →
        (∀ i, i < pfx.length → k0.getD (d + i) 0 = pfx.getD i 0) ∧
        k0.getD (d + pfx.length) 0 = b) ∧
    invCh L d pfx rest

end

theorem invCh_mem {L d : Nat} {pfx : List Nat} : ∀ {ch : List (Nat × Tree)}
    {pr : Nat × Tree}, invCh L d pfx ch → pr ∈ ch →
    invT L (d + pfx.length + 1) pr.2 ∧
    ∀ k0, k0 ∈ keysOf pr.2 →
      (∀ i, i < pfx.length → k0.getD (d + i) 0 = pfx.getD i 0) ∧
      k0.getD (d + pfx.length) 0 = pr.1 := by
  intro ch
  induction ch with
  | nil => intro pr _ hm; simp at hm
  | cons hd rest ih =>
    intro pr hinv hm
    match hd, hinv with
    | (b, c), ⟨hhd, hrest⟩ =>
      rcases List.mem_cons.mp hm with h | h
      · subst h
        exact hhd
      · exact ih hrest h

theorem keysOfCh_agree {L d : Nat} {pfx : List Nat} : ∀ {ch : List (Nat × Tree)}
    {k0 : List Nat}, invCh L d pfx ch → k0 ∈ keysOfCh ch →
    ∀ i, i < pfx.length → k0.getD (d + i) 0 = pfx.getD i 0 := by
  intro ch
  induction ch with
  | nil => intro k0 _ hm; rw [keysOfCh] at hm; simp at hm
  | cons hd rest ih =>
    intro k0 hinv hm
    match hd, hinv with
    | (b, c), ⟨hhd, hrest⟩ =>
      rw [keysOfCh] at hm
      rcases List.mem_append.mp hm with h | h
      · exact (hhd.2 k0 h).1
      · exact ih hrest h

theorem keys_leaf_self (k0 : List Nat) (rids : List Nat) :
    k0 ∈ keysOf (.leaf k0 rids) := by
  rw [keysOf]
  simp

mutual

theorem searchT_insertT (L : Nat) (k : List Nat) (r : Nat) (k' : List Nat)
    (d : Nat) (t : Tree) (hinv : invT L d t) (hkL : k.length = L)
    (hagr : ∀ k0, k0 ∈ keysOf t → ∀ i, i < d → k0.getD i 0 = k.getD i 0) :
    searchT k' d (insertT k r d t) =
      searchT k' d t ++ (if k' = k then [r] else []) := by
  match t with
  | .leaf k0 rids =>
    obtain ⟨hk0L, hdL⟩ : k0.length = L ∧ d ≤ L := hinv
    by_cases he : k0 = k
    · rw [insertT, if_pos he, searchT, searchT]
      by_cases h1 : k0 = k'
      · rw [if_pos h1, if_pos h1, if_pos (show k' = k from h1.symm.trans he)]
      · rw [if_neg h1, if_neg h1,
          if_neg (show ¬(k' = k) from fun hc => h1 (he.trans hc.symm))]
        simp
    · -- leaf split on the longest common span
      rw [insertT, if_neg he]
      have hagr0 : ∀ i, i < d → k0.getD i 0 = k.getD i 0 :=
        hagr k0 (keys_leaf_self k0 rids)
      have hdrne : k0.drop d ≠ k.drop d :=
        drop_ne_of_ne k0 k d (by rw [hk0L, hkL]) he hagr0
      have hdrlen : (k0.drop d).length = (k.drop d).length := by
        simp [hk0L, hkL]
      have hm_lt : lcp (k0.drop d) (k.drop d) < (k0.drop d).length :=
        lcp_lt_of_ne _ _ hdrlen hdrne
      have hm_lt' : lcp (k0.drop d) (k.drop d) < (k.drop d).length := by
        rw [← hdrlen]
        exact hm_lt
      have hmL : d + lcp (k0.drop d) (k.drop d) < L := by
        have : (k0.drop d).length = L - d := by simp [hk0L]
        omega
      have bne : k0.getD (d + lcp (k0.drop d) (k.drop d)) 0 ≠
          k.getD (d + lcp (k0.drop d) (k.drop d)) 0 := by
        have := lcp_getD_ne (k0.drop d) (k.drop d) hm_lt hm_lt'
        rwa [getD_drop, getD_drop] at this
      have hPlen : ((k.drop d).take (lcp (k0.drop d) (k.drop d))).length =
          lcp (k0.drop d) (k.drop d) := by
        simp
        omega
      have hPgetD : ∀ i, i < lcp (k0.drop d) (k.drop d) →
          ((k.drop d).take (lcp (k0.drop d) (k.drop d))).getD i 0 =
            k.getD (d + i) 0 := by
        intro i hi
        rw [getD_take_of_lt _ _ _ _ hi, getD_drop]
      have hk0P : ∀ i, i < lcp (k0.drop d) (k.drop d) →
          k0.getD (d + i) 0 =
            ((k.drop d).take (lcp (k0.drop d) (k.drop d))).getD i 0 := by
        intro i hi
        have := lcp_getD_eq (k0.drop d) (k.drop d) i hi
        rw [getD_drop, getD_drop] at this
        rw [this, hPgetD i hi]
      by_cases hk' : k' = k
      · subst hk'
        have hfull : pMismatch k' ((k'.drop d).take (lcp (k0.drop d) (k'.drop d))) d =
            lcp (k0.drop d) (k'.drop d) := by
          have := pm_full k' ((k'.drop d).take (lcp (k0.drop d) (k'.drop d))) d
            (fun i hi => (hPgetD i (by rw [hPlen] at hi; exact hi)).symm)
          rwa [hPlen] at this
        rw [searchT, if_neg he, if_pos rfl]
        rw [searchT, if_neg (by rw [hfull, hPlen]; omega), hPlen]
        rw [searchCh, if_neg bne, searchCh, if_pos rfl, searchT, if_pos rfl]
        simp
      · rw [searchT, searchT, if_neg (show ¬(k' = k) from hk')]
        by_cases hq : pMismatch k' ((k.drop d).take (lcp (k0.drop d) (k.drop d))) d <
            ((k.drop d).take (lcp (k0.drop d) (k.drop d))).length
        · rw [if_pos hq]
          have hk0ne : ¬(k0 = k') := by
            intro he'
            subst he'
            rw [pm_full k0 _ d (fun i hi => hk0P i (by rw [hPlen] at hi; exact hi))] at hq
            omega
          rw [if_neg hk0ne]
          simp
        · rw [if_neg hq, hPlen]
          by_cases hbk0 : k0.getD (d + lcp (k0.drop d) (k.drop d)) 0 =
              k'.getD (d + lcp (k0.drop d) (k.drop d)) 0
          · rw [searchCh, if_pos hbk0, searchT]
            simp
          · rw [searchCh, if_neg hbk0]
            have hk0ne : ¬(k0 = k') := by
              intro he'
              subst he'
              exact hbk0 rfl
            rw [if_neg hk0ne]
            by_cases hbk : k.getD (d + lcp (k0.drop d) (k.drop d)) 0 =
                k'.getD (d + lcp (k0.drop d) (k.drop d)) 0
            · rw [searchCh, if_pos hbk, searchT,
                if_neg (show ¬(k = k') from fun hc => hk' hc.symm)]
              simp
            · rw [searchCh, if_neg hbk, searchCh]
              simp
  | .inner pfx ch =>
    obtain ⟨hdL, hchinv⟩ : d + pfx.length < L ∧ invCh L d pfx ch := hinv
    by_cases hp : pMismatch k pfx d < pfx.length
    · -- split inside the compressed prefix
      rw [insertT, if_pos hp]
      have htlen : (pfx.take (pMismatch k pfx d)).length = pMismatch k pfx d := by
        simp
        omega
      have hkagr : ∀ i, i < pMismatch k pfx d → k.getD (d + i) 0 = pfx.getD i 0 :=
        pm_agree k pfx d
      have hkne : k.getD (d + pMismatch k pfx d) 0 ≠ pfx.getD (pMismatch k pfx d) 0 :=
        pm_ne k pfx d hp
      by_cases hk' : k' = k
      · subst hk'
        have hfull : pMismatch k' (pfx.take (pMismatch k' pfx d)) d =
            pMismatch k' pfx d := by
          have := pm_full k' (pfx.take (pMismatch k' pfx d)) d
            (fun i hi => by
              rw [htlen] at hi
              rw [getD_take_of_lt _ _ _ _ hi]
              exact hkagr i hi)
          rwa [htlen] at this
        rw [searchT, if_neg (by rw [hfull, htlen]; omega), htlen]
        rw [searchCh, if_neg (fun hc => hkne (hc.symm)), searchCh, if_pos rfl,
          searchT, if_pos rfl]
        rw [searchT, if_pos hp]
        simp
      · rw [searchT, searchT, if_neg (show ¬(k' = k) from hk')]
        by_cases hq : pMismatch k' pfx d < pMismatch k pfx d
        · -- the searched key diverges before the split point
          have hqt : pMismatch k' (pfx.take (pMismatch k pfx d)) d =
              pMismatch k' pfx d := by
            refine pm_eq_of k' _ d _ (by rw [htlen]; omega) ?_ ?_
            · intro i hi
              rw [getD_take_of_lt _ _ _ _ (by omega)]
              exact pm_agree k' pfx d i hi
            · intro hlt
              rw [htlen] at hlt
              rw [getD_take_of_lt _ _ _ _ hlt]
              exact pm_ne k' pfx d (by omega)
          rw [if_pos (by rw [hqt, htlen]; omega), if_pos (by omega)]
          simp
        · -- the searched key matches the whole shortened prefix
          have hqt : pMismatch k' (pfx.take (pMismatch k pfx d)) d =
              pMismatch k pfx d := by
            refine pm_eq_of k' _ d _ (by rw [htlen]) ?_ ?_
            · intro i hi
              rw [getD_take_of_lt _ _ _ _ hi]
              exact pm_agree k' pfx d i (by omega)
            · intro hlt
              rw [htlen] at hlt
              omega
          rw [if_neg (by rw [hqt, htlen]; omega), htlen]
          by_cases hqp : pMismatch k' pfx d = pMismatch k pfx d
          · -- mismatch exactly at the split point
            have hbne : pfx.getD (pMismatch k pfx d) 0 ≠
                k'.getD (d + pMismatch k pfx d) 0 := by
              intro hc
              apply pm_ne k' pfx d (by omega)
              rw [hqp, hc.symm]
            rw [searchCh, if_neg hbne]
            rw [if_pos (by omega)]
            by_cases hbk : k.getD (d + pMismatch k pfx d) 0 =
                k'.getD (d + pMismatch k pfx d) 0
            · rw [searchCh, if_pos hbk, searchT,
                if_neg (show ¬(k = k') from fun hc => hk' hc.symm)]
              simp
            · rw [searchCh, if_neg hbk, searchCh]
              simp
          · -- the searched key matches past the split point
            have hqgt : pMismatch k pfx d < pMismatch k' pfx d := by omega
            have hbeq : pfx.getD (pMismatch k pfx d) 0 =
                k'.getD (d + pMismatch k pfx d) 0 :=
              (pm_agree k' pfx d _ hqgt).symm
            rw [searchCh, if_pos hbeq, searchT]
            have hqd : pMismatch k' (pfx.drop (pMismatch k pfx d + 1))
                (d + pMismatch k pfx d + 1) =
                pMismatch k' pfx d - (pMismatch k pfx d + 1) := by
              have hqle := pm_le k' pfx d
              refine pm_eq_of k' _ _ _ (by simp; omega) ?_ ?_
              · intro i hi
                rw [getD_drop]
                rw [show d + pMismatch k pfx d + 1 + i =
                    d + (pMismatch k pfx d + 1 + i) from by omega]
                exact pm_agree k' pfx d _ (by omega)
              · intro hlt
                simp at hlt
                have := pm_ne k' pfx d (by omega)
                rw [getD_drop]
                rw [show d + pMismatch k pfx d + 1 +
                    (pMismatch k' pfx d - (pMismatch k pfx d + 1)) =
                    d + pMismatch k' pfx d from by omega]
                rw [show pMismatch k pfx d + 1 +
                    (pMismatch k' pfx d - (pMismatch k pfx d + 1)) =
                    pMismatch k' pfx d from by omega]
                exact this
            by_cases hql : pMismatch k' pfx d < pfx.length
            · rw [if_pos (by rw [hqd]; simp; omega), if_pos hql]
              simp
            · rw [if_neg (by rw [hqd]; simp; omega), if_neg hql]
              have hlend : (pfx.drop (pMismatch k pfx d + 1)).length =
                  pfx.length - (pMismatch k pfx d + 1) := by simp
              rw [hlend]
              rw [show d + pMismatch k pfx d + 1 +
                  (pfx.length - (pMismatch k pfx d + 1)) = d + pfx.length from
                  by omega]
              simp
    · -- the key matches the whole prefix: descend into the child
      rw [insertT, if_neg hp]
      have hpeq : pMismatch k pfx d = pfx.length := by
        have := pm_le k pfx d
        omega
      have hkfull : ∀ i, i < pfx.length → k.getD (d + i) 0 = pfx.getD i 0 :=
        fun i hi => pm_agree k pfx d i (by omega)
      rw [searchT, searchT]
      by_cases hq : pMismatch k' pfx d < pfx.length
      · rw [if_pos hq, if_pos hq,
          if_neg (show ¬(k' = k) from fun hc => by subst hc; omega)]
        simp
      · rw [if_neg hq, if_neg hq]
        have hCH := searchCh_insertCh L k r k' (d + pfx.length + 1)
          (k.getD (d + pfx.length) 0) (k'.getD (d + pfx.length) 0) ch
          (fun pr hm => (invCh_mem hchinv hm).1)
          (fun pr hm hb k0 hk0 i hi => by
            have hinvpr := invCh_mem hchinv hm
            by_cases hid : i < d
            · exact hagr k0 (by rw [keysOf]; exact keysOfCh_mem ch pr k0 hm hk0) i hid
            · by_cases hid2 : i < d + pfx.length
              · have h1 := ((hinvpr.2 k0 hk0).1 (i - d) (by omega))
                have h2 := hkfull (i - d) (by omega)
                rw [show d + (i - d) = i from by omega] at h1 h2
                rw [h1, h2]
              · have : i = d + pfx.length := by omega
                subst this
                rw [(hinvpr.2 k0 hk0).2, hb])
          hkL
        rw [hCH]
        by_cases hkk : k' = k
        · subst hkk
          rw [if_pos ⟨rfl, rfl⟩, if_pos rfl]
        · rw [if_neg (fun hc => hkk hc.2), if_neg hkk]

theorem searchCh_insertCh (L : Nat) (k : List Nat) (r : Nat) (k' : List Nat)
    (d : Nat) (b b' : Nat) (ch : List (Nat × Tree))
    (hinv : ∀ pr, pr ∈ ch → invT L d pr.2)
    (hagr : ∀ pr, pr ∈ ch → pr.1 = b → ∀ k0, k0 ∈ keysOf pr.2 →
      ∀ i, i < d → k0.getD i 0 = k.getD i 0)
    (hkL : k.length = L) :
    searchCh k' d b' (insertCh k r d b ch) =
      searchCh k' d b' ch ++ (if b' = b ∧ k' = k then [r] else []) := by
  match ch with
  | [] =>
    rw [insertCh, searchCh, searchCh]
    by_cases hb : b = b'
    · rw [if_pos hb, searchT]
      by_cases hkk : k = k'
      · rw [if_pos hkk, if_pos ⟨hb.symm, hkk.symm⟩]
        simp
      · rw [if_neg hkk, if_neg (fun hc => hkk hc.2.symm)]
        simp
    · rw [if_neg hb, if_neg (fun hc => hb hc.1.symm), searchCh]
      simp
  | (bc, c) :: rest =>
    rw [insertCh]
    by_cases hcb : bc = b
    · rw [if_pos hcb, searchCh, searchCh]
      by_cases hcb' : bc = b'
      · rw [if_pos hcb', if_pos hcb']
        rw [searchT_insertT L k r k' d c (hinv (bc, c) (by simp)) hkL
          (fun k0 hk0 i hi => hagr (bc, c) (by simp) hcb k0 hk0 i hi)]
        by_cases hkk : k' = k
        · rw [if_pos hkk, if_pos ⟨hcb'.symm.trans hcb, hkk⟩]
        · rw [if_neg hkk, if_neg (fun hc => hkk hc.2)]
      · rw [if_neg hcb', if_neg hcb']
        rw [if_neg (fun hc : b' = b ∧ k' = k => hcb' (hcb.symm ▸ hc.1.symm ▸ rfl))]
        simp
    · rw [if_neg hcb, searchCh, searchCh]
      by_cases hcb' : bc = b'
      · rw [if_pos hcb', if_pos hcb']
        rw [if_neg (fun hc : b' = b ∧ k' = k => hcb (hcb'.trans hc.1))]
        simp
      · rw [if_neg hcb', if_neg hcb']
        exact searchCh_insertCh L k r k' d b b' rest
          (fun pr hm => hinv pr (List.mem_cons_of_mem _ hm))
          (fun pr hm hb k0 hk0 i hi =>
            hagr pr (List.mem_cons_of_mem _ hm) hb k0 hk0 i hi)
          hkL

end

mutual

theorem keysOf_insertT (k : List Nat) (r : Nat) (d : Nat) (t : Tree)
    (k0 : List Nat) :
    k0 ∈ keysOf (insertT k r d t) ↔ (k0 ∈ keysOf t ∨ k0 = k) := by
  match t with
  | .leaf k1 rids =>
    by_cases he : k1 = k
    · rw [insertT, if_pos he, keysOf, keysOf]
      subst he
      simp
    · rw [insertT, if_neg he]
      simp [keysOf, keysOfCh]
  | .inner pfx ch =>
    by_cases hp : pMismatch k pfx d < pfx.length
    · rw [insertT, if_pos hp]
      simp [keysOf, keysOfCh]
    · rw [insertT, if_neg hp, keysOf, keysOf]
      exact keysOf_insertCh k r (d + pfx.length + 1) (k.getD (d + pfx.length) 0)
        ch k0

theorem keysOf_insertCh (k : List Nat) (r : Nat) (d b : Nat)
    (ch : List (Nat × Tree)) (k0 : List Nat) :
    k0 ∈ keysOfCh (insertCh k r d b ch) ↔ (k0 ∈ keysOfCh ch ∨ k0 = k) := by
  match ch with
  | [] =>
    rw [insertCh]
    simp [keysOfCh, keysOf]
  | (bc, c) :: rest =>
    by_cases hcb : bc = b
    · rw [insertCh, if_pos hcb, keysOfCh, keysOfCh]
      have := keysOf_insertT k r d c k0
      simp only [List.mem_append]
      rw [this]
      tauto
    · rw [insertCh, if_neg hcb, keysOfCh, keysOfCh]
      have := keysOf_insertCh k r d b rest k0
      simp only [List.mem_append]
      rw [this]
      tauto

end

theorem invCh_shift (L d p : Nat) (pfx : List Nat) (hp : p < pfx.length) :
    ∀ ch : List (Nat × Tree), invCh L d pfx ch →
    invCh L (d + p + 1) (pfx.drop (p + 1)) ch := by
  intro ch
  induction ch with
  | nil => intro _; rw [invCh]; trivial
  | cons hd rest ih =>
    intro hinv
    match hd, hinv with
    | (b, c), ⟨⟨hct, hck⟩, hrest⟩ =>
      refine ⟨⟨?_, ?_⟩, ih hrest⟩
      · rw [show d + p + 1 + (pfx.drop (p + 1)).length + 1 =
          d + pfx.length + 1 from by simp; omega]
        exact hct
      · intro k0 hk0
        obtain ⟨hagreed, hbyte⟩ := hck k0 hk0
        constructor
        · intro i hi
          simp only [List.length_drop] at hi
          rw [getD_drop]
          rw [show d + p + 1 + i = d + (p + 1 + i) from by omega]
          exact hagreed (p + 1 + i) (by omega)
        · rw [show d + p + 1 + (pfx.drop (p + 1)).length =
            d + pfx.length from by simp; omega]
          exact hbyte

mutual

theorem invT_insertT (L : Nat) (k : List Nat) (r : Nat) (d : Nat) (t : Tree)
    (hinv : invT L d t) (hkL : k.length = L)
    (hagr : ∀ k0, k0 ∈ keysOf t → ∀ i, i < d → k0.getD i 0 = k.getD i 0) :
    invT L d (insertT k r d t) := by
  match t with
  | .leaf k0 rids =>
    obtain ⟨hk0L, hdL⟩ : k0.length = L ∧ d ≤ L := hinv
    by_cases he : k0 = k
    · rw [insertT, if_pos he]
      exact ⟨hk0L, hdL⟩
    · rw [insertT, if_neg he]
      have hagr0 : ∀ i, i < d → k0.getD i 0 = k.getD i 0 :=
        hagr k0 (keys_leaf_self k0 rids)
      have hdrne : k0.drop d ≠ k.drop d :=
        drop_ne_of_ne k0 k d (by rw [hk0L, hkL]) he hagr0
      have hdrlen : (k0.drop d).length = (k.drop d).length := by
        simp [hk0L, hkL]
      have hm_lt : lcp (k0.drop d) (k.drop d) < (k0.drop d).length :=
        lcp_lt_of_ne _ _ hdrlen hdrne
      have hmL : d + lcp (k0.drop d) (k.drop d) < L := by
        have : (k0.drop d).length = L - d := by simp [hk0L]
        omega
      have hPlen : ((k.drop d).take (lcp (k0.drop d) (k.drop d))).length =
          lcp (k0.drop d) (k.drop d) := by
        simp [hkL]
        omega
      have hPgetD : ∀ i, i < lcp (k0.drop d) (k.drop d) →
          ((k.drop d).take (lcp (k0.drop d) (k.drop d))).getD i 0 =
            k.getD (d + i) 0 := by
        intro i hi
        rw [getD_take_of_lt _ _ _ _ hi, getD_drop]
      have hk0P : ∀ i, i < lcp (k0.drop d) (k.drop d) →
          k0.getD (d + i) 0 =
            ((k.drop d).take (lcp (k0.drop d) (k.drop d))).getD i 0 := by
        intro i hi
        have := lcp_getD_eq (k0.drop d) (k.drop d) i hi
        rw [getD_drop, getD_drop] at this
        rw [this, hPgetD i hi]
      refine ⟨by rw [hPlen]; omega, ⟨⟨⟨hk0L, by rw [hPlen]; omega⟩, ?_⟩,
        ⟨⟨⟨hkL, by rw [hPlen]; omega⟩, ?_⟩, trivial⟩⟩⟩
      · intro k1 hk1
        rw [keysOf] at hk1
        simp at hk1
        subst hk1
        constructor
        · intro i hi
          rw [hPlen] at hi
          exact hk0P i hi
        · rw [hPlen]
      · intro k1 hk1
        rw [keysOf] at hk1
        simp at hk1
        subst hk1
        constructor
        · intro i hi
          rw [hPlen] at hi
          exact (hPgetD i hi).symm
        · rw [hPlen]
  | .inner pfx ch =>
    obtain ⟨hdL, hchinv⟩ : d + pfx.length < L ∧ invCh L d pfx ch := hinv
    by_cases hp : pMismatch k pfx d < pfx.length
    · rw [insertT, if_pos hp]
      have htlen : (pfx.take (pMismatch k pfx d)).length = pMismatch k pfx d := by
        simp
        omega
      refine ⟨by rw [htlen]; omega, ⟨⟨⟨?_, ?_⟩, ?_⟩,
        ⟨⟨⟨hkL, by rw [htlen]; omega⟩, ?_⟩, trivial⟩⟩⟩
      · rw [show d + (pfx.take (pMismatch k pfx d)).length + 1 +
          (pfx.drop (pMismatch k pfx d + 1)).length =
          d + pfx.length from by simp; omega]
        omega
      · rw [htlen]
        exact invCh_shift L d (pMismatch k pfx d) pfx hp ch hchinv
      · intro k1 hk1
        rw [keysOf] at hk1
        constructor
        · intro i hi
          rw [htlen] at hi
          rw [getD_take_of_lt _ _ _ _ hi]
          exact keysOfCh_agree hchinv hk1 i (by omega)
        · rw [htlen]
          exact keysOfCh_agree hchinv hk1 (pMismatch k pfx d) hp
      · intro k1 hk1
        rw [keysOf] at hk1
        simp at hk1
        subst hk1
        constructor
        · intro i hi
          rw [htlen] at hi
          rw [getD_take_of_lt _ _ _ _ (by omega)]
          exact pm_agree _ pfx d i hi
        · rw [htlen]
    · rw [insertT, if_neg hp]
      have hpeq : pMismatch k pfx d = pfx.length := by
        have := pm_le k pfx d
        omega
      have hkfull : ∀ i, i < pfx.length → k.getD (d + i) 0 = pfx.getD i 0 :=
        fun i hi => pm_agree k pfx d i (by omega)
      refine ⟨hdL, ?_⟩
      exact invCh_insertCh L k r d pfx (k.getD (d + pfx.length) 0) ch hchinv hkL
        hdL hkfull rfl
        (fun k0 hm i hi => hagr k0 (by rw [keysOf]; exact hm) i hi)

theorem invCh_insertCh (L : Nat) (k : List Nat) (r : Nat) (d : Nat)
    (pfx : List Nat) (b : Nat) (ch : List (Nat × Tree))
    (hinv : invCh L d pfx ch) (hkL : k.length = L)
    (hdL : d + pfx.length < L)
    (hkfull : ∀ i, i < pfx.length → k.getD (d + i) 0 = pfx.getD i 0)
    (hbk : k.getD (d + pfx.length) 0 = b)
    (hagr : ∀ k0, k0 ∈ keysOfCh ch → ∀ i, i < d → k0.getD i 0 = k.getD i 0) :
    invCh L d pfx (insertCh k r (d + pfx.length + 1) b ch) := by
  match ch with
  | [] =>
    rw [insertCh]
    refine ⟨⟨⟨hkL, by omega⟩, ?_⟩, trivial⟩
    intro k0 hk0
    rw [keysOf] at hk0
    simp at hk0
    subst hk0
    exact ⟨hkfull, hbk⟩
  | (bc, c) :: rest =>
    obtain ⟨⟨hct, hck⟩, hrest⟩ := hinv
    by_cases hcb : bc = b
    · rw [insertCh, if_pos hcb]
      refine ⟨⟨?_, ?_⟩, hrest⟩
      · refine invT_insertT L k r (d + pfx.length + 1) c hct hkL ?_
        intro k0 hk0 i hi
        by_cases hid : i < d
        · exact hagr k0 (by rw [keysOfCh]; exact List.mem_append_left _ hk0) i hid
        · obtain ⟨hagreed, hbyte⟩ := hck k0 hk0
          by_cases hid2 : i < d + pfx.length
          · have h1 := hagreed (i - d) (by omega)
            have h2 := hkfull (i - d) (by omega)
            rw [show d + (i - d) = i from by omega] at h1 h2
            rw [h1, h2]
          · have : i = d + pfx.length := by omega
            subst this
            rw [hbyte, hcb, ← hbk]
      · intro k0 hk0
        rw [keysOf_insertT k r (d + pfx.length + 1) c k0] at hk0
        rcases hk0 with h | h
        · exact hck k0 h
        · subst h
          exact ⟨hkfull, hbk.trans hcb.symm⟩
    · rw [insertCh, if_neg hcb]
      refine ⟨⟨hct, hck⟩, ?_⟩
      exact invCh_insertCh L k r d pfx b rest hrest hkL hdL hkfull hbk
        (fun k0 hm i hi =>
          hagr k0 (by rw [keysOfCh]; exact List.mem_append_right _ hm) i hi)

end

mutual

theorem eraseT_not_found (k : List Nat) (r : Nat) (root : Bool) (d : Nat)
    (t : Tree) (h : r ∉ searchT k d t) :
    eraseT k r root d t = (false, some t) := by
  match t with
  | .leaf k0 rids =>
    by_cases hk0 : k0 = k
    · rw [searchT, if_pos hk0] at h
      rw [eraseT, if_neg (fun hc => h hc.2)]
    · rw [eraseT, if_neg (fun hc => hk0 hc.1)]
  | .inner pfx ch =>
    by_cases hq : pMismatch k pfx d < pfx.length
    · rw [eraseT, if_pos hq]
    · rw [searchT, if_neg hq] at h
      rw [eraseT, if_neg hq,
        eraseCh_not_found k r (d + pfx.length + 1) (k.getD (d + pfx.length) 0)
          ch h]

theorem eraseCh_not_found (k : List Nat) (r : Nat) (d b : Nat)
    (ch : List (Nat × Tree)) (h : r ∉ searchCh k d b ch) :
    eraseCh k r d b ch = (false, ch) := by
  match ch with
  | [] => rfl
  | (bc, c) :: rest =>
    by_cases hbc : bc = b
    · rw [searchCh, if_pos hbc] at h
      rw [eraseCh, if_pos hbc, eraseT_not_found k r false d c h]
    · rw [searchCh, if_neg hbc] at h
      rw [eraseCh, if_neg hbc, eraseCh_not_found k r d b rest h]

end

/-- C7: erasing a (key, row-id) pair that is not present leaves the tree
unchanged and reports the outcome as the ordinary not-found result value
(first component false); the erase model returns a value in every case, so
no fatal condition or exception is involved. -/
theorem erase_not_found (t : Option Tree) (k : List Nat) (r : Nat)
    (h : r ∉ searchRoot t k) :
    eraseRoot t k r = (false, t) := by
  match t with
  | none => rfl
  | some tr =>
    rw [eraseRoot]
    exact eraseT_not_found k r true 0 tr (by rwa [searchRoot] at h)

/-- C7 witness: erasing a pair whose row-id is absent is a reported no-op. -/
theorem erase_not_found_witness :
    (7 : Nat) ∉ searchRoot (some (.leaf [0, 1] [5])) [0, 2] ∧
    eraseRoot (some (.leaf [0, 1] [5])) [0, 2] 7 =
      (false, some (.leaf [0, 1] [5])) :=
  ⟨by decide, erase_not_found (some (.leaf [0, 1] [5])) [0, 2] 7 (by decide)⟩

/-!
Node-variant layer.  The Node4/Node16/Node48/Node256 insert/erase routines
are not part of the excerpt, so the capacity and growth discipline below is
modelled from the spec, sections 3 and 4.1: a node stores its (key byte,
child) pairs with distinct bytes; an insert into a node already holding its
variant's capacity first replaces the node with the next larger variant,
copying all pairs and the prefix, then records the new pair.  The variant
changes only the physical layout of the pair set, which this model keeps as
the list of pairs.
-/

/-- Modelled from the spec: the four variant tags. -/
inductive VType where
  | v4
  | v16
  | v48
  | v256
deriving DecidableEq

/-- Modelled from the spec: each variant's child capacity. -/
def capacity : VType → Nat
  | .v4 => 4
  | .v16 => 16
  | .v48 => 48
  | .v256 => 256

/-- Modelled from the spec: the next larger variant. -/
def nextUp : VType → VType
  | .v4 => .v16
  | .v16 => .v48
  | .v48 => .v256
  | .v256 => .v256

/-- Modelled from the spec: a variant node: tag, compressed prefix, and the
stored (key byte, child) pairs. -/
structure VNode where
  vtype : VType
  pfx : List Nat
  slots : List (Nat × Nat)
deriving DecidableEq

/-- Modelled from the spec: growing replaces the node with the next larger
variant, copying all existing (byte, child) pairs and the prefix. -/
def grow (n : VNode) : VNode :=
  { n with vtype := nextUp n.vtype }

/-- Modelled from the spec: InsertChild grows the node first when the insert
would exceed the variant's capacity, then records the new pair. -/
def insertChild (n : VNode) (b c : Nat) : VNode :=
  let m := if n.slots.length = capacity n.vtype then grow n else n
  { m with slots := m.slots ++ [(b, c)] }

/-- C5: inserting the 5th, 17th and 49th child triggers the transitions
Node4→Node16, Node16→Node48 and Node48→Node256 respectively; a node below
capacity keeps its variant; growing preserves the (byte, child) pairs and
the prefix exactly, and an insert adds exactly the new pair while keeping
the prefix; and after the mutation the count never exceeds the (possibly
new) variant's capacity. -/
theorem variant_growth (n : VNode) (b c : Nat)
    (hnodup : (n.slots.map Prod.fst).Nodup)
    (hlt : ∀ x ∈ n.slots.map Prod.fst, x < 256)
    (hb : b < 256) (hbnew : b ∉ n.slots.map Prod.fst)
    (hcap : n.slots.length ≤ capacity n.vtype) :
    ((n.vtype = .v4 ∧ n.slots.length = 4 → (insertChild n b c).vtype = .v16) ∧
     (n.vtype = .v16 ∧ n.slots.length = 16 → (insertChild n b c).vtype = .v48) ∧
     (n.vtype = .v48 ∧ n.slots.length = 48 → (insertChild n b c).vtype = .v256) ∧
     (n.slots.length < capacity n.vtype → (insertChild n b c).vtype = n.vtype)) ∧
    ((grow n).slots = n.slots ∧ (grow n).pfx = n.pfx) ∧
    ((insertChild n b c).slots = n.slots ++ [(b, c)] ∧
     (insertChild n b c).pfx = n.pfx) ∧
    (insertChild n b c).slots.length ≤ capacity (insertChild n b c).vtype := by
  have hfull256 : n.vtype = .v256 → n.slots.length ≠ 256 := by
    intro hv hlen
    have hmaplen : (n.slots.map Prod.fst).length = 256 := by
      simp [hlen]
    have hsub : (n.slots.map Prod.fst).toFinset ⊆ Finset.range 256 := by
      intro x hx
      rw [List.mem_toFinset] at hx
      exact Finset.mem_range.mpr (hlt x hx)
    have hcard : (n.slots.map Prod.fst).toFinset.card = 256 := by
      rw [List.toFinset_card_of_nodup hnodup]
      exact hmaplen
    have heq : (n.slots.map Prod.fst).toFinset = Finset.range 256 :=
      Finset.eq_of_subset_of_card_le hsub (by rw [hcard]; simp)
    have : b ∈ (n.slots.map Prod.fst).toFinset := by
      rw [heq]
      exact Finset.mem_range.mpr hb
    exact hbnew (List.mem_toFinset.mp this)
  refine ⟨⟨?_, ?_, ?_, ?_⟩, ⟨rfl, rfl⟩, ⟨?_, ?_⟩, ?_⟩
  · rintro ⟨ht, hl⟩
    simp [insertChild, grow, ht, hl, capacity, nextUp]
  · rintro ⟨ht, hl⟩
    simp [insertChild, grow, ht, hl, capacity, nextUp]
  · rintro ⟨ht, hl⟩
    simp [insertChild, grow, ht, hl, capacity, nextUp]
  · intro hlt'
    simp [insertChild, Nat.ne_of_lt hlt']
  · by_cases hfull : n.slots.length = capacity n.vtype
    · simp [insertChild, hfull, grow]
    · simp [insertChild, hfull]
  · by_cases hfull : n.slots.length = capacity n.vtype
    · simp [insertChild, hfull, grow]
    · simp [insertChild, hfull]
  · by_cases hfull : n.slots.length = capacity n.vtype
    · simp only [insertChild, if_pos hfull, grow]
      simp only [List.length_append, List.length_cons, List.length_nil]
      cases hv : n.vtype with
      | v4 =>
        rw [hv] at hfull
        simp [capacity] at hfull
        simp [capacity, nextUp, hfull]
      | v16 =>
        rw [hv] at hfull
        simp [capacity] at hfull
        simp [capacity, nextUp, hfull]
      | v48 =>
        rw [hv] at hfull
        simp [capacity] at hfull
        simp [capacity, nextUp, hfull]
      | v256 =>
        rw [hv] at hfull
        simp [capacity] at hfull
        exact absurd hfull (hfull256 hv)
    · simp only [insertChild, if_neg hfull]
      simp
      omega

/-- C5 witness: a full Node4 grows to Node16 on its 5th insert, keeping its
pairs and prefix. -/
theorem variant_growth_witness :
    (([(0, 10), (1, 11), (2, 12), (3, 13)].map (Prod.fst (α := Nat) (β := Nat))).Nodup ∧
     (∀ x ∈ [(0, 10), (1, 11), (2, 12), (3, 13)].map (Prod.fst (α := Nat) (β := Nat)), x < 256) ∧
     (9 : Nat) < 256 ∧
     (9 : Nat) ∉ [(0, 10), (1, 11), (2, 12), (3, 13)].map (Prod.fst (α := Nat) (β := Nat)) ∧
     ([(0, 10), (1, 11), (2, 12), (3, 13)] : List (Nat × Nat)).length ≤
       capacity .v4) ∧
    (insertChild ⟨.v4, [7], [(0, 10), (1, 11), (2, 12), (3, 13)]⟩ 9 99).vtype = .v16 ∧
    (insertChild ⟨.v4, [7], [(0, 10), (1, 11), (2, 12), (3, 13)]⟩ 9 99).slots =
      [(0, 10), (1, 11), (2, 12), (3, 13)] ++ [(9, 99)] ∧
    (insertChild ⟨.v4, [7], [(0, 10), (1, 11), (2, 12), (3, 13)]⟩ 9 99).pfx = [7] := by
  have h := variant_growth ⟨.v4, [7], [(0, 10), (1, 11), (2, 12), (3, 13)]⟩ 9 99
    (by decide) (by decide) (by decide) (by decide) (by decide)
  exact ⟨⟨by decide, by decide, by decide, by decide, by decide⟩,
    h.1.1 ⟨rfl, rfl⟩, h.2.2.1.1, h.2.2.1.2⟩

end DuckArt
